import Mathlib

/-!
Shallow embedding of the `PromiseQueue` class (src/unnamed/part_001) of the
repository.  The queue is a small asynchronous state machine: callers `add`
keyed jobs, `run` starts a drain cycle, at most `maxConcurrent` worker
invocations are in flight at once, a failing worker is retried once (when
retries are enabled), and a terminal failure rejects the cycle handle and
resets the cycle state.

Modelling choices:
* keys are `Nat`, extra argument vectors are `List Nat`, errors are `Nat`;
* the JS `Map` is an association list with `mapSet` (replace-or-append,
  matching `Map.set`), `mapGet` and `mapDelete`;
* promise/deferred identity is a `Nat` id drawn from a fresh counter
  (`nextId`); the settlement state of every id lives in the `settled` list;
* an asynchronous worker invocation is an entry of the `inflight` list,
  recording the key, the extra args, and the `Job` value captured by
  `_runJob` at invocation time (line 89 of the source); the settlement of an
  in-flight invocation is a separate transition (`settleJob`), which runs the
  code after the `await` in `_runJob`;
* `invocations` is a ghost log: the deferred id of the job is appended each
  time the worker (`this._process`) is actually called, so that trace-level
  statements about how often a given job's worker ran can be made;
* `maxConcurrent = none` models `Infinity`; `_numRunning` is a `Nat`
  (settlement of an in-flight invocation is the only decrement, so the JS
  value never goes negative).
-/

namespace PromiseQueueModel

/-- Modelled from the spec: the `Deferred` module (`makeDeferredWithPromise`
in `./Deferred`) is not under `src/`; spec sections 3 and 4.1 describe the
handle as a settle-once state machine with exactly three states, where any
settlement attempt after the first is silently ignored.  `none` in the
rejection payload position of `settled` below means fulfilled, `some e`
means rejected with error `e`. -/
inductive PState where
  | pending : PState
  | fulfilled : PState
  | rejected : Nat → PState
deriving DecidableEq, Repr

/-- One outstanding unit of work, as stored in `this._processing`: the
identity of its completion deferred/promise pair and the `retried` flag. -/
structure Job where
  deferredId : Nat
  retried : Bool
deriving DecidableEq, Repr

/-- The full state of one `PromiseQueue` instance together with the
settlement state of every deferred it has created and the set of worker
invocations currently in flight. -/
structure QState where
  nextId : Nat
  settled : List (Nat × Option Nat)
  deferred : Option Nat
  maxConcurrent : Option Nat
  numRunning : Nat
  processing : List (Nat × Job)
  queue : List (Nat × List Nat)
  retry : Bool
  runPromise : Option Nat
  inflight : List (Nat × List Nat × Job)
  invocations : List Nat
deriving DecidableEq, Repr

/-- Lookup in an association list, the model of `Map.prototype.get`. -/
def mapGet {β : Type} : List (Nat × β) → Nat → Option β
  | [], _ => none
  | (k, v) :: rest, key => if key = k then some v else mapGet rest key

/-- Replace-or-append, the model of `Map.prototype.set`. -/
def mapSet {β : Type} : List (Nat × β) → Nat → β → List (Nat × β)
  | [], key, val => [(key, val)]
  | (k, v) :: rest, key, val =>
      if key = k then (key, val) :: rest else (k, v) :: mapSet rest key val

/-- Removal of a key, the model of `Map.prototype.delete`. -/
def mapDelete {β : Type} : List (Nat × β) → Nat → List (Nat × β)
  | [], _ => []
  | (k, v) :: rest, key => if key = k then rest else (k, v) :: mapDelete rest key

/-- Modelled from the spec: observing the state of a completion handle
(pending until its first settlement, then permanently fulfilled or
rejected). -/
def promState (s : QState) (id : Nat) : PState :=
  match mapGet s.settled id with
  | none => PState.pending
  | some none => PState.fulfilled
  | some (some e) => PState.rejected e

/-- Modelled from the spec: settling a deferred.  The first settlement wins;
later attempts are silently ignored (spec section 4.1). -/
def settleP (s : QState) (id : Nat) (v : Option Nat) : QState :=
  match mapGet s.settled id with
  | some _ => s
  | none => { s with settled := (id, v) :: s.settled }

/-- The admission guard `n < this._maxConcurrent`, where `none` stands for
`Infinity` (every number is below it). -/
def ltMax (n : Nat) : Option Nat → Bool
  | none => true
  | some m => n < m

/-- The synchronous prefix of `_runJob(key, args)` (source lines 88-92): look
the job up (`nullthrows`), increment `_numRunning`, and start the worker.
When the key is absent, `nullthrows` throws inside the `async` function; the
call site observes no state change (the increment is never reached) and the
invocation never starts. -/
def runJobStart (s : QState) (k : Nat) (a : List Nat) : QState :=
  match mapGet s.processing k with
  | none => s
  | some job =>
      { s with
        numRunning := s.numRunning + 1,
        inflight := s.inflight ++ [(k, a, job)],
        invocations := s.invocations ++ [job.deferredId] }

/-- The `_reset` method (source lines 137-141): a fresh `_processing` map and
cleared cycle handle fields.  Note that `_queue` and `_numRunning` are left
untouched by the source. -/
def reset (s : QState) : QState :=
  { s with processing := [], runPromise := none, deferred := none }

/-- The `while` loop of `_next` (source lines 124-128): shift pairs off the
front of `_queue` and call `_runJob` on each while slack remains under the
concurrency limit.  The list argument is the current queue contents;
`runJobStart` never reads or writes the `queue` field, which is rewritten
with the remainder on exit. -/
def drainGo : List (Nat × List Nat) → QState → QState
  | [], s => { s with queue := [] }
  | (k, a) :: rest, s =>
      if ltMax s.numRunning s.maxConcurrent then
        drainGo rest (runJobStart s k a)
      else
        { s with queue := (k, a) :: rest }

/-- The drain check at the end of `_next` (source lines 130-134): when the
registry is empty, resolve the cycle deferred and reset.  The source asserts
`this._deferred != null` there; the assertion cannot fire in a reachable
state, and the model leaves the state unchanged in that case. -/
def nextCheck (s : QState) : QState :=
  if s.processing.isEmpty then
    match s.deferred with
    | some d => reset (settleP s d none)
    | none => s
  else s

/-- The `_next` method (source lines 119-135): return immediately when no
cycle is active; otherwise admit pending work and run the drain check. -/
def next (s : QState) : QState :=
  match s.runPromise with
  | none => s
  | some _ => nextCheck (drainGo s.queue s)

/-- The `add` method (source lines 45-72): return the existing job's promise
when the key is outstanding; otherwise create a fresh job, and either start
it immediately (cycle active and slack under the limit) or push it onto the
back of the queue.  Returns the promise id handed to the caller. -/
def add (s : QState) (k : Nat) (a : List Nat) : QState × Nat :=
  match mapGet s.processing k with
  | some job => (s, job.deferredId)
  | none =>
      let id := s.nextId
      let s1 := { s with
                  nextId := id + 1,
                  processing := mapSet s.processing k ⟨id, false⟩ }
      if s1.runPromise.isSome && ltMax s1.numRunning s1.maxConcurrent then
        (runJobStart s1 k a, id)
      else
        ({ s1 with queue := s1.queue ++ [(k, a)] }, id)

/-- The `run` method (source lines 74-86): return the existing cycle promise
when one is active; otherwise create the cycle deferred/promise pair, store
it, and call `_next`.  Returns the promise id handed to the caller. -/
def run (s : QState) : QState × Nat :=
  match s.runPromise with
  | some p => (s, p)
  | none =>
      let id := s.nextId
      let s1 := { s with nextId := id + 1, deferred := some id, runPromise := some id }
      (next s1, id)

/-- Settlement of the in-flight worker invocation at position `i` (the code
of `_runJob` after the `await`, source lines 93-117).  `res = none` is
success; `res = some err` is a rejection with error `err`.  The invocation
record is consumed; on success the job settles and is removed; on a first
failure with retries enabled the job is requeued with `retried := true`; a
terminal failure removes the job, rejects its deferred and the cycle
deferred, and resets. -/
def settleJob (s : QState) (i : Nat) (res : Option Nat) : QState :=
  match s.inflight[i]? with
  | none => s
  | some (k, a, job) =>
      let s1 := { s with inflight := s.inflight.eraseIdx i }
      match res with
      | none =>
          let s2 := settleP s1 job.deferredId none
          let s3 := { s2 with
                      processing := mapDelete s2.processing k,
                      numRunning := s2.numRunning - 1 }
          next s3
      | some err =>
          let s2 := { s1 with numRunning := s1.numRunning - 1 }
          if s2.retry && !job.retried then
            let s3 := { s2 with
                        processing := mapSet s2.processing k { job with retried := true },
                        queue := s2.queue ++ [(k, a)] }
            next s3
          else
            let s3 := { s2 with processing := mapDelete s2.processing k }
            let s4 := settleP s3 job.deferredId (some err)
            let s5 := match s4.deferred with
                      | some d => settleP s4 d (some err)
                      | none => s4
            reset s5

/-- The state of a freshly constructed queue. -/
def initQ (maxC : Option Nat) (r : Bool) : QState :=
  { nextId := 0, settled := [], deferred := none, maxConcurrent := maxC,
    numRunning := 0, processing := [], queue := [], retry := r,
    runPromise := none, inflight := [], invocations := [] }

/-- The constructor (source lines 29-41): a supplied `maxConcurrent ≤ 0` is
rejected with a `TypeError`; an absent `maxConcurrent` means `Infinity`
(modelled as `none`); `retry` defaults to `true` (`options.retry !== false`). -/
def construct (maxConcurrent : Option Int) (retryOpt : Option Bool) : Except String QState :=
  match maxConcurrent with
  | some m =>
      if m ≤ 0 then Except.error "maxConcurrent must be a positive, non-zero value"
      else Except.ok (initQ (some m.toNat) (!(retryOpt == some false)))
  | none => Except.ok (initQ none (!(retryOpt == some false)))

/-- One atomic turn of the queue's single thread of control: a call to
`add`, a call to `run`, or the settlement of one in-flight worker
invocation. -/
inductive Step : QState → QState → Prop
  | add (s : QState) (k : Nat) (a : List Nat) : Step s (add s k a).1
  | run (s : QState) : Step s (run s).1
  | settle (s : QState) (i : Nat) (res : Option Nat) : Step s (settleJob s i res)

/-- States reachable from `s0` by any sequence of turns. -/
def ReachableFrom (s0 s : QState) : Prop :=
  Relation.ReflTransGen Step s0 s

/-- Decides whether the settlement event `(i, res)` would take the terminal
failure branch of `_runJob` (a rejection with retries exhausted or
disabled). -/
def terminalAt (s : QState) (i : Nat) (res : Option Nat) : Bool :=
  match s.inflight[i]?, res with
  | some (_, _, job), some _ => !(s.retry && !job.retried)
  | _, _ => false

/-- Turns that never take the terminal failure branch. -/
inductive StepNT : QState → QState → Prop
  | add (s : QState) (k : Nat) (a : List Nat) : StepNT s (add s k a).1
  | run (s : QState) : StepNT s (run s).1
  | settle (s : QState) (i : Nat) (res : Option Nat)
      (h : terminalAt s i res = false) : StepNT s (settleJob s i res)

/-- States reachable from `s0` without a terminal failure ever occurring. -/
def ReachableNT (s0 s : QState) : Prop :=
  Relation.ReflTransGen StepNT s0 s

/-! Invariants used by the claims. -/

/-- Every pair in the pending queue has a registry entry for its key
(spec section 3). -/
def PendingInv (s : QState) : Prop :=
  ∀ p ∈ s.queue, (mapGet s.processing p.1).isSome = true

/-- Every in-flight invocation's key maps in the registry to exactly the job
value the invocation captured. -/
def InflightInv (s : QState) : Prop :=
  ∀ r ∈ s.inflight, mapGet s.processing r.1 = some r.2.2

/-- Each key occurs at most once across the pending queue and the in-flight
set. -/
def UniqueKey (s : QState) : Prop :=
  ∀ k : Nat,
    s.queue.countP (fun p => p.1 == k) + s.inflight.countP (fun r => r.1 == k) ≤ 1

/-- The structural invariant of terminal-failure-free execution. -/
def GoodInv (s : QState) : Prop :=
  PendingInv s ∧ InflightInv s ∧ UniqueKey s

/-- `GoodInv` where the pending queue is the explicit list `l` instead of the
state's `queue` field (for reasoning about the `_next` loop, which threads
the remaining queue separately). -/
def GoodAux (l : List (Nat × List Nat)) (s : QState) : Prop :=
  (∀ p ∈ l, (mapGet s.processing p.1).isSome = true) ∧ InflightInv s ∧
  (∀ k : Nat,
    l.countP (fun p => p.1 == k) + s.inflight.countP (fun r => r.1 == k) ≤ 1)

/-- The concurrency invariant: the number of in-flight worker invocations
never exceeds a configured finite limit. -/
def MaxOk (s : QState) : Prop :=
  ∀ N : Nat, s.maxConcurrent = some N → s.numRunning ≤ N

/-! Concrete execution traces used as counterexamples and witnesses.

Trace A runs a queue with `maxConcurrent = 1` and retries disabled: two jobs
are added, `run` starts the first, and the first fails terminally while the
second was never started.  The terminal reset then leaves the pair for key
`2` in the pending queue with an empty registry. -/

def sA0 : QState := initQ (some 1) false
def sA1 : QState := (add sA0 1 []).1
def sA2 : QState := (add sA1 2 []).1
def sA3 : QState := (run sA2).1
def cexA : QState := settleJob sA3 0 (some 5)

/-! Trace B runs a queue with `maxConcurrent = 2` and retries enabled.  The
first cycle admits keys 1, 2, 3; failures of 1 and 3 are retried, and the
retry of 1 fails terminally, resetting the cycle while key 2's worker is
still in flight and the retried pair for key 3 is still pending.  A second
cycle re-adds key 3 (job with deferred id 4, created by the `add` in `sB8`):
the stale pending pair and the job's own pair both start its worker, and a
failure of the first of those invocations (whose captured `retried` flag is
`false`) re-enqueues and starts it a third time. -/

def sB0 : QState := initQ (some 2) true
def sB1 : QState := (add sB0 1 []).1
def sB2 : QState := (add sB1 2 []).1
def sB3 : QState := (add sB2 3 []).1
def sB4 : QState := (run sB3).1
def sB5 : QState := settleJob sB4 0 (some 9)
def sB6 : QState := settleJob sB5 1 (some 9)
def sB7 : QState := settleJob sB6 1 (some 9)
def sB8 : QState := (add sB7 3 []).1
def sB9 : QState := (run sB8).1
def sB10 : QState := settleJob sB9 0 none
def sB11 : QState := settleJob sB10 0 (some 9)

end PromiseQueueModel

namespace PromiseQueueModel

/-! Field-preservation lemmas for the individual operations. -/

@[simp] theorem settleP_processing (s : QState) (id : Nat) (v : Option Nat) :
    (settleP s id v).processing = s.processing := by
  unfold settleP; split <;> rfl

@[simp] theorem settleP_queue (s : QState) (id : Nat) (v : Option Nat) :
    (settleP s id v).queue = s.queue := by
  unfold settleP; split <;> rfl

@[simp] theorem settleP_inflight (s : QState) (id : Nat) (v : Option Nat) :
    (settleP s id v).inflight = s.inflight := by
  unfold settleP; split <;> rfl

@[simp] theorem settleP_numRunning (s : QState) (id : Nat) (v : Option Nat) :
    (settleP s id v).numRunning = s.numRunning := by
  unfold settleP; split <;> rfl

@[simp] theorem settleP_runPromise (s : QState) (id : Nat) (v : Option Nat) :
    (settleP s id v).runPromise = s.runPromise := by
  unfold settleP; split <;> rfl

@[simp] theorem settleP_deferred (s : QState) (id : Nat) (v : Option Nat) :
    (settleP s id v).deferred = s.deferred := by
  unfold settleP; split <;> rfl

@[simp] theorem settleP_maxConcurrent (s : QState) (id : Nat) (v : Option Nat) :
    (settleP s id v).maxConcurrent = s.maxConcurrent := by
  unfold settleP; split <;> rfl

@[simp] theorem settleP_retry (s : QState) (id : Nat) (v : Option Nat) :
    (settleP s id v).retry = s.retry := by
  unfold settleP; split <;> rfl

@[simp] theorem settleP_nextId (s : QState) (id : Nat) (v : Option Nat) :
    (settleP s id v).nextId = s.nextId := by
  unfold settleP; split <;> rfl

@[simp] theorem settleP_invocations (s : QState) (id : Nat) (v : Option Nat) :
    (settleP s id v).invocations = s.invocations := by
  unfold settleP; split <;> rfl

@[simp] theorem runJobStart_processing (s : QState) (k : Nat) (a : List Nat) :
    (runJobStart s k a).processing = s.processing := by
  unfold runJobStart; split <;> rfl

@[simp] theorem runJobStart_queue (s : QState) (k : Nat) (a : List Nat) :
    (runJobStart s k a).queue = s.queue := by
  unfold runJobStart; split <;> rfl

@[simp] theorem runJobStart_settled (s : QState) (k : Nat) (a : List Nat) :
    (runJobStart s k a).settled = s.settled := by
  unfold runJobStart; split <;> rfl

@[simp] theorem runJobStart_deferred (s : QState) (k : Nat) (a : List Nat) :
    (runJobStart s k a).deferred = s.deferred := by
  unfold runJobStart; split <;> rfl

@[simp] theorem runJobStart_runPromise (s : QState) (k : Nat) (a : List Nat) :
    (runJobStart s k a).runPromise = s.runPromise := by
  unfold runJobStart; split <;> rfl

@[simp] theorem runJobStart_maxConcurrent (s : QState) (k : Nat) (a : List Nat) :
    (runJobStart s k a).maxConcurrent = s.maxConcurrent := by
  unfold runJobStart; split <;> rfl

@[simp] theorem runJobStart_retry (s : QState) (k : Nat) (a : List Nat) :
    (runJobStart s k a).retry = s.retry := by
  unfold runJobStart; split <;> rfl

@[simp] theorem runJobStart_nextId (s : QState) (k : Nat) (a : List Nat) :
    (runJobStart s k a).nextId = s.nextId := by
  unfold runJobStart; split <;> rfl

theorem drainGo_processing (l : List (Nat × List Nat)) (s : QState) :
    (drainGo l s).processing = s.processing := by
  induction l generalizing s with
  | nil => rfl
  | cons p rest ih =>
      obtain ⟨k, a⟩ := p
      unfold drainGo
      split
      · rw [ih, runJobStart_processing]
      · rfl

theorem drainGo_settled (l : List (Nat × List Nat)) (s : QState) :
    (drainGo l s).settled = s.settled := by
  induction l generalizing s with
  | nil => rfl
  | cons p rest ih =>
      obtain ⟨k, a⟩ := p
      unfold drainGo
      split
      · rw [ih, runJobStart_settled]
      · rfl

theorem drainGo_deferred (l : List (Nat × List Nat)) (s : QState) :
    (drainGo l s).deferred = s.deferred := by
  induction l generalizing s with
  | nil => rfl
  | cons p rest ih =>
      obtain ⟨k, a⟩ := p
      unfold drainGo
      split
      · rw [ih, runJobStart_deferred]
      · rfl

theorem drainGo_runPromise (l : List (Nat × List Nat)) (s : QState) :
    (drainGo l s).runPromise = s.runPromise := by
  induction l generalizing s with
  | nil => rfl
  | cons p rest ih =>
      obtain ⟨k, a⟩ := p
      unfold drainGo
      split
      · rw [ih, runJobStart_runPromise]
      · rfl

theorem drainGo_maxConcurrent (l : List (Nat × List Nat)) (s : QState) :
    (drainGo l s).maxConcurrent = s.maxConcurrent := by
  induction l generalizing s with
  | nil => rfl
  | cons p rest ih =>
      obtain ⟨k, a⟩ := p
      unfold drainGo
      split
      · rw [ih, runJobStart_maxConcurrent]
      · rfl

theorem drainGo_retry (l : List (Nat × List Nat)) (s : QState) :
    (drainGo l s).retry = s.retry := by
  induction l generalizing s with
  | nil => rfl
  | cons p rest ih =>
      obtain ⟨k, a⟩ := p
      unfold drainGo
      split
      · rw [ih, runJobStart_retry]
      · rfl

theorem drainGo_nextId (l : List (Nat × List Nat)) (s : QState) :
    (drainGo l s).nextId = s.nextId := by
  induction l generalizing s with
  | nil => rfl
  | cons p rest ih =>
      obtain ⟨k, a⟩ := p
      unfold drainGo
      split
      · rw [ih, runJobStart_nextId]
      · rfl

/-! Association list lemmas. -/

theorem mapGet_mapSet_self {β : Type} (l : List (Nat × β)) (k : Nat) (v : β) :
    mapGet (mapSet l k v) k = some v := by
  induction l with
  | nil => simp [mapGet, mapSet]
  | cons p rest ih =>
      obtain ⟨k', v'⟩ := p
      by_cases h : k = k'
      · simp [mapGet, mapSet, h]
      · simp [mapGet, mapSet, h, ih]

theorem mapGet_mapSet_ne {β : Type} (l : List (Nat × β)) (k k' : Nat) (v : β)
    (h : k' ≠ k) : mapGet (mapSet l k v) k' = mapGet l k' := by
  induction l with
  | nil => simp [mapGet, mapSet, h]
  | cons p rest ih =>
      obtain ⟨k0, v0⟩ := p
      by_cases hk : k = k0
      · subst hk
        simp [mapGet, mapSet, h]
      · by_cases hk' : k' = k0 <;> simp [mapGet, mapSet, hk, hk', ih]

theorem mapGet_mapDelete_ne {β : Type} (l : List (Nat × β)) (k k' : Nat)
    (h : k' ≠ k) : mapGet (mapDelete l k) k' = mapGet l k' := by
  induction l with
  | nil => rfl
  | cons p rest ih =>
      obtain ⟨k0, v0⟩ := p
      by_cases hk : k = k0
      · subst hk
        simp [mapGet, mapDelete, h]
      · by_cases hk' : k' = k0 <;> simp [mapGet, mapDelete, hk, hk', ih]

theorem mapSet_ne_nil {β : Type} (l : List (Nat × β)) (k : Nat) (v : β) :
    mapSet l k v ≠ [] := by
  cases l with
  | nil => simp [mapSet]
  | cons p rest =>
      obtain ⟨k0, v0⟩ := p
      by_cases h : k = k0 <;> simp [mapSet, h]

end PromiseQueueModel

namespace PromiseQueueModel

theorem nextCheck_eq_of_ne_nil (s : QState) (h : s.processing ≠ []) :
    nextCheck s = s := by
  have hb : s.processing.isEmpty = false := by
    cases hp : s.processing with
    | nil => exact absurd hp h
    | cons x xs => rfl
  simp [nextCheck, hb]

theorem next_processing_of_ne_nil (s : QState) (h : s.processing ≠ []) :
    (next s).processing = s.processing := by
  unfold next
  rcases hrp : s.runPromise with _ | p
  · rfl
  · have hd := drainGo_processing s.queue s
    have hne : (drainGo s.queue s).processing ≠ [] := by rw [hd]; exact h
    rw [nextCheck_eq_of_ne_nil _ hne, hd]

theorem promState_pending_iff (s : QState) (id : Nat) :
    promState s id = PState.pending ↔ mapGet s.settled id = none := by
  unfold promState
  rcases h : mapGet s.settled id with _ | v
  · simp
  · cases v <;> simp

/-- C7: while a cycle is active (`_runPromise` is set), every further call
to `run` returns the very promise stored by the call that started the cycle
and leaves the whole state unchanged, so no new cycle is started. -/
theorem run_idempotent_while_active (s : QState) (p : Nat)
    (h : s.runPromise = some p) : run s = (s, p) := by
  simp [run, h]

/-- Witness for `run_idempotent_while_active`: in the concrete trace state
`sA3` a cycle is active with promise id 2, and `run` returns it unchanged. -/
theorem run_idempotent_while_active_witness : run sA3 = (sA3, 2) :=
  run_idempotent_while_active sA3 2 (by decide)

/-- C8: construction fails (synchronously, with the invalid-configuration
error) exactly when a concurrency limit is supplied and is zero or negative;
an unspecified limit is stored as `Infinity`, for which the admission guard
always passes (unbounded); an unspecified retry option enables retries. -/
theorem construct_spec :
    (∀ (m : Int) (r : Option Bool), m ≤ 0 → (construct (some m) r).isOk = false) ∧
    (∀ (m : Int) (r : Option Bool), 0 < m →
        construct (some m) r = Except.ok (initQ (some m.toNat) (!(r == some false)))) ∧
    (∀ r : Option Bool, construct none r = Except.ok (initQ none (!(r == some false)))) ∧
    (∀ n : Nat, ltMax n none = true) ∧
    (∀ (mc : Option Int) (s : QState), construct mc none = Except.ok s → s.retry = true) := by
  refine ⟨?_, ?_, ?_, ?_, ?_⟩
  · intro m r h
    have he : construct (some m) r =
        Except.error "maxConcurrent must be a positive, non-zero value" := by
      simp [construct, h]
    rw [he]
    rfl
  · intro m r h
    simp [construct, not_le.mpr h]
  · intro r
    rfl
  · intro n
    rfl
  · intro mc s h
    cases mc with
    | none =>
        have hs : initQ none true = s := by simpa [construct] using h
        rw [← hs]
        rfl
    | some m =>
        by_cases hm : m ≤ 0
        · simp [construct, hm] at h
        · have hs : initQ (some m.toNat) true = s := by simpa [construct, hm] using h
          rw [← hs]
          rfl

/-- Witness for `construct_spec`: a zero limit is rejected, a positive limit
and an absent limit are accepted, and the unbounded guard passes at a large
count. -/
theorem construct_spec_witness :
    (construct (some 0) none).isOk = false ∧
    construct (some 3) none = Except.ok (initQ (some (Int.toNat 3)) (!((none : Option Bool) == some false))) ∧
    construct none (some true) = Except.ok (initQ none (!(some true == some false))) ∧
    ltMax 1000000 none = true :=
  ⟨construct_spec.1 0 none (by decide),
   construct_spec.2.1 3 none (by decide),
   construct_spec.2.2.1 (some true),
   construct_spec.2.2.2.1 1000000⟩

/-- C2: for a key with an outstanding job, `add` returns the job's existing
promise id and leaves the state completely unchanged (so no new job is
created and the worker is not invoked for that call); moreover the retry
transition replaces the registry entry while preserving the completion
handle id, so a key awaiting its retry attempt still deduplicates to the
same handle. -/
theorem add_dedup_same_handle :
    (∀ (s : QState) (k : Nat) (a : List Nat) (job : Job),
        mapGet s.processing k = some job → add s k a = (s, job.deferredId)) ∧
    (∀ (s : QState) (i k : Nat) (a : List Nat) (job : Job) (err : Nat),
        s.inflight[i]? = some (k, a, job) → s.retry = true → job.retried = false →
        mapGet (settleJob s i (some err)).processing k =
          some { deferredId := job.deferredId, retried := true }) := by
  constructor
  · intro s k a job h
    simp [add, h]
  · intro s i k a job err hrec hretry hflag
    unfold settleJob
    rw [hrec]
    simp only [hretry, hflag, Bool.not_false, Bool.and_self, if_true]
    rw [next_processing_of_ne_nil _ (by simp [mapSet_ne_nil])]
    simp [mapGet_mapSet_self]

/-- Witness for `add_dedup_same_handle`: in trace state `sA3` key 1 is
outstanding with handle id 0 and a second `add` returns it unchanged; and in
trace state `sB4` a failure of the in-flight invocation for key 1 leaves the
registry entry for key 1 holding the same handle id 0 with `retried`
flipped. -/
theorem add_dedup_same_handle_witness :
    add sA3 1 [7] = (sA3, 0) ∧
    mapGet (settleJob sB4 0 (some 9)).processing 1 =
      some { deferredId := 0, retried := true } :=
  ⟨add_dedup_same_handle.1 sA3 1 [7] ⟨0, false⟩ (by decide),
   add_dedup_same_handle.2 sB4 0 1 [] ⟨0, false⟩ 9 (by decide) (by decide) rfl⟩

/-- C9: admission policy of `add` for a key with no outstanding job: with a
cycle active and slack under the limit the worker starts immediately (a new
in-flight invocation of the fresh job appears and the pending queue is
untouched); with no slack the pair goes to the back of the pending queue;
and with no cycle active the pair always goes to the back of the pending
queue and no worker is invoked, regardless of available slack. -/
theorem add_admission_policy (s : QState) (k : Nat) (a : List Nat)
    (h : mapGet s.processing k = none) :
    (s.runPromise.isSome = true → ltMax s.numRunning s.maxConcurrent = true →
        (add s k a).1.inflight = s.inflight ++ [(k, a, ⟨s.nextId, false⟩)] ∧
        (add s k a).1.queue = s.queue ∧
        (add s k a).1.invocations = s.invocations ++ [s.nextId]) ∧
    (ltMax s.numRunning s.maxConcurrent = false →
        (add s k a).1.queue = s.queue ++ [(k, a)] ∧
        (add s k a).1.inflight = s.inflight ∧
        (add s k a).1.invocations = s.invocations) ∧
    (s.runPromise = none →
        (add s k a).1.queue = s.queue ++ [(k, a)] ∧
        (add s k a).1.inflight = s.inflight ∧
        (add s k a).1.invocations = s.invocations) := by
  refine ⟨?_, ?_, ?_⟩
  · intro h1 h2
    simp [add, h, h1, h2, runJobStart, mapGet_mapSet_self]
  · intro h2
    simp [add, h, h2]
  · intro h3
    simp [add, h, h3]

/-- Witness for `add_admission_policy`: adding key 5 in trace state `sA1`
(no cycle active) queues it behind key 1; adding key 5 in `sA3` (cycle
active, limit reached) queues it; a fresh unbounded queue that is running
starts an added job immediately. -/
theorem add_admission_policy_witness :
    ((add sA1 5 []).1.queue = sA1.queue ++ [(5, [])] ∧
     (add sA1 5 []).1.inflight = sA1.inflight ∧
     (add sA1 5 []).1.invocations = sA1.invocations) ∧
    ((add sA3 5 []).1.queue = sA3.queue ++ [(5, [])] ∧
     (add sA3 5 []).1.inflight = sA3.inflight ∧
     (add sA3 5 []).1.invocations = sA3.invocations) ∧
    ((add (run (add (initQ none true) 1 []).1).1 5 []).1.inflight =
        (run (add (initQ none true) 1 []).1).1.inflight ++
          [(5, [], ⟨(run (add (initQ none true) 1 []).1).1.nextId, false⟩)] ∧
     (add (run (add (initQ none true) 1 []).1).1 5 []).1.queue =
        (run (add (initQ none true) 1 []).1).1.queue ∧
     (add (run (add (initQ none true) 1 []).1).1 5 []).1.invocations =
        (run (add (initQ none true) 1 []).1).1.invocations ++
          [(run (add (initQ none true) 1 []).1).1.nextId]) :=
  ⟨(add_admission_policy sA1 5 [] (by decide)).2.2 (by decide),
   (add_admission_policy sA3 5 [] (by decide)).2.1 (by decide),
   (add_admission_policy (run (add (initQ none true) 1 []).1).1 5 [] (by decide)).1
     (by decide) (by decide)⟩

end PromiseQueueModel

namespace PromiseQueueModel

theorem settleP_of_unsettled (s : QState) (id : Nat) (v : Option Nat)
    (h : mapGet s.settled id = none) :
    settleP s id v = { s with settled := (id, v) :: s.settled } := by
  unfold settleP
  rw [h]

theorem runJobStart_of_none (s : QState) (k : Nat) (a : List Nat)
    (h : mapGet s.processing k = none) : runJobStart s k a = s := by
  unfold runJobStart
  rw [h]

/-- C3 (and the second half of C6's amendment): a terminal worker failure
(rejection while retries are disabled or the job has already been retried)
removes the job from the registry, rejects the job's own completion handle
with the worker's error, rejects the active cycle's handle — the promise
returned by `run` — with the same error, and resets the cycle handle state. -/
theorem terminal_failure_rejects_and_resets
    (s : QState) (i k : Nat) (a : List Nat) (job : Job) (err d : Nat)
    (hrec : s.inflight[i]? = some (k, a, job))
    (hterm : (s.retry && !job.retried) = false)
    (hrp : s.runPromise = some d) (hd : s.deferred = some d)
    (hjp : promState s job.deferredId = PState.pending)
    (hdp : promState s d = PState.pending)
    (hne : job.deferredId ≠ d) :
    (settleJob s i (some err)).processing = [] ∧
    mapGet (settleJob s i (some err)).processing k = none ∧
    promState (settleJob s i (some err)) job.deferredId = PState.rejected err ∧
    promState (settleJob s i (some err)) d = PState.rejected err ∧
    (settleJob s i (some err)).runPromise = none ∧
    (settleJob s i (some err)).deferred = none := by
  have h1 : mapGet s.settled job.deferredId = none := (promState_pending_iff s _).mp hjp
  have h2 : mapGet s.settled d = none := (promState_pending_iff s _).mp hdp
  have hne2 : d ≠ job.deferredId := Ne.symm hne
  simp [settleJob, hrec, hterm, hd, reset, settleP, promState, mapGet, h1, h2, hne, hne2]

/-- C6 (amended): the cycle-ending reset after a terminal failure clears the
registry and the cycle handle fields but leaves the pending queue exactly as
it was and merely decrements the running count (other in-flight workers keep
their invocation records). -/
theorem terminal_reset_leaves_pending_and_running
    (s : QState) (i k : Nat) (a : List Nat) (job : Job) (err : Nat)
    (hrec : s.inflight[i]? = some (k, a, job))
    (hterm : (s.retry && !job.retried) = false) :
    (settleJob s i (some err)).processing = [] ∧
    (settleJob s i (some err)).runPromise = none ∧
    (settleJob s i (some err)).deferred = none ∧
    (settleJob s i (some err)).queue = s.queue ∧
    (settleJob s i (some err)).numRunning = s.numRunning - 1 ∧
    (settleJob s i (some err)).inflight = s.inflight.eraseIdx i := by
  rcases hdd : s.deferred with _ | d <;>
    simp [settleJob, hrec, hterm, hdd, reset]

theorem drainGo_of_processing_nil (l : List (Nat × List Nat)) (s : QState)
    (h : s.processing = []) :
    drainGo l s =
      { s with queue := if ltMax s.numRunning s.maxConcurrent then [] else l } := by
  induction l with
  | nil => simp [drainGo]
  | cons p rest ih =>
      obtain ⟨k, a⟩ := p
      unfold drainGo
      cases hg : ltMax s.numRunning s.maxConcurrent with
      | true =>
          simp only [hg, if_true]
          rw [runJobStart_of_none s k a (by rw [h]; rfl), ih]
          simp [hg]
      | false => simp [hg]

theorem nextCheck_of_nil_some (s : QState) (d : Nat) (hp : s.processing = [])
    (hd : s.deferred = some d) (hu : mapGet s.settled d = none) :
    nextCheck s = reset { s with settled := (d, none) :: s.settled } := by
  unfold nextCheck
  rw [hp, hd]
  show reset (settleP s d none) = _
  rw [settleP_of_unsettled s d none hu]
  simp [reset]

theorem run_empty_core (s : QState) (hp : s.processing = [])
    (hr : s.runPromise = none) (h1 : mapGet s.settled s.nextId = none) :
    (run s).2 = s.nextId ∧
    (run s).1 =
      { s with nextId := s.nextId + 1,
               queue := if ltMax s.numRunning s.maxConcurrent then [] else s.queue,
               settled := (s.nextId, none) :: s.settled,
               processing := [], runPromise := none, deferred := none } := by
  constructor
  · simp [run, hr]
  · simp only [run, hr]
    show next { s with nextId := s.nextId + 1,
                       deferred := some s.nextId, runPromise := some s.nextId } = _
    unfold next
    show nextCheck (drainGo s.queue _) = _
    rw [drainGo_of_processing_nil _ _ (by exact hp)]
    rw [nextCheck_of_nil_some _ s.nextId (by exact hp) rfl (by exact h1)]
    rfl

/-- C10: calling `run` with an empty registry fulfills the returned cycle
handle within the call itself, invokes no worker, and resets the cycle
state, so that a subsequent `run` returns a fresh handle with a strictly
larger id (itself again fulfilled immediately). -/
theorem run_empty_registry (s : QState)
    (hp : s.processing = []) (hr : s.runPromise = none)
    (h1 : mapGet s.settled s.nextId = none)
    (h2 : mapGet s.settled (s.nextId + 1) = none) :
    (run s).2 = s.nextId ∧
    promState (run s).1 s.nextId = PState.fulfilled ∧
    (run s).1.runPromise = none ∧ (run s).1.deferred = none ∧
    (run s).1.inflight = s.inflight ∧
    (run s).1.invocations = s.invocations ∧
    (run (run s).1).2 = s.nextId + 1 ∧
    (run (run s).1).2 ≠ (run s).2 ∧
    promState (run (run s).1).1 (s.nextId + 1) = PState.fulfilled := by
  obtain ⟨e1, e2⟩ := run_empty_core s hp hr h1
  have hp' : (run s).1.processing = [] := by rw [e2]
  have hr' : (run s).1.runPromise = none := by rw [e2]
  have h1' : mapGet (run s).1.settled (run s).1.nextId = none := by
    rw [e2]
    show mapGet ((s.nextId, none) :: s.settled) (s.nextId + 1) = none
    unfold mapGet
    rw [if_neg (by omega)]
    exact h2
  obtain ⟨f1, f2⟩ := run_empty_core (run s).1 hp' hr' h1'
  have hnext : (run s).1.nextId = s.nextId + 1 := by rw [e2]
  refine ⟨e1, ?_, hr', by rw [e2], by rw [e2], by rw [e2], ?_, ?_, ?_⟩
  · rw [e2]
    simp [promState, mapGet]
  · rw [f1, hnext]
  · rw [f1, hnext, e1]
    omega
  · rw [f2, hnext]
    simp [promState, mapGet]

end PromiseQueueModel

namespace PromiseQueueModel

/-- Witness for `terminal_failure_rejects_and_resets`: the failure of key
1's worker in trace state `sA3` (retries disabled) rejects handle 0 and
cycle handle 2 with the error and clears the cycle state. -/
theorem terminal_failure_rejects_and_resets_witness :
    (settleJob sA3 0 (some 5)).processing = [] ∧
    mapGet (settleJob sA3 0 (some 5)).processing 1 = none ∧
    promState (settleJob sA3 0 (some 5)) 0 = PState.rejected 5 ∧
    promState (settleJob sA3 0 (some 5)) 2 = PState.rejected 5 ∧
    (settleJob sA3 0 (some 5)).runPromise = none ∧
    (settleJob sA3 0 (some 5)).deferred = none :=
  terminal_failure_rejects_and_resets sA3 0 1 [] ⟨0, false⟩ 5 2 (by decide)
    (by decide) (by decide) (by decide) (by decide) (by decide) (by decide)

/-- Witness for `terminal_reset_leaves_pending_and_running`: the terminal
failure of key 1's retried invocation in trace state `sB6` clears the
registry and the handles but leaves the non-empty pending queue in place. -/
theorem terminal_reset_leaves_pending_and_running_witness :
    (settleJob sB6 1 (some 9)).processing = [] ∧
    (settleJob sB6 1 (some 9)).runPromise = none ∧
    (settleJob sB6 1 (some 9)).deferred = none ∧
    (settleJob sB6 1 (some 9)).queue = sB6.queue ∧
    (settleJob sB6 1 (some 9)).numRunning = sB6.numRunning - 1 ∧
    (settleJob sB6 1 (some 9)).inflight = sB6.inflight.eraseIdx 1 :=
  terminal_reset_leaves_pending_and_running sB6 1 1 [] ⟨0, true⟩ 9
    (by decide) (by decide)

/-- Witness for `run_empty_registry`: running a fresh unbounded queue with
nothing added fulfills handle 0 at once and a second `run` yields the fresh
fulfilled handle 1. -/
theorem run_empty_registry_witness :
    (run (initQ none true)).2 = 0 ∧
    promState (run (initQ none true)).1 0 = PState.fulfilled ∧
    (run (initQ none true)).1.runPromise = none ∧
    (run (initQ none true)).1.deferred = none ∧
    (run (initQ none true)).1.inflight = (initQ none true).inflight ∧
    (run (initQ none true)).1.invocations = (initQ none true).invocations ∧
    (run (run (initQ none true)).1).2 = 0 + 1 ∧
    (run (run (initQ none true)).1).2 ≠ (run (initQ none true)).2 ∧
    promState (run (run (initQ none true)).1).1 (0 + 1) = PState.fulfilled :=
  run_empty_registry (initQ none true) rfl rfl rfl rfl

/-! The concurrency invariant (claim C1). -/

@[simp] theorem reset_maxConcurrent (s : QState) :
    (reset s).maxConcurrent = s.maxConcurrent := rfl

@[simp] theorem reset_numRunning (s : QState) :
    (reset s).numRunning = s.numRunning := rfl

theorem ltMax_true_some {n N : Nat} (h : ltMax n (some N) = true) : n < N := by
  simpa [ltMax] using h

theorem maxOk_mono (s s' : QState) (h : MaxOk s)
    (hm : s'.maxConcurrent = s.maxConcurrent)
    (hn : s'.numRunning ≤ s.numRunning) : MaxOk s' := by
  intro N hN
  rw [hm] at hN
  exact le_trans hn (h N hN)

theorem maxOk_runJobStart (s : QState) (k : Nat) (a : List Nat)
    (hg : ltMax s.numRunning s.maxConcurrent = true) (h : MaxOk s) :
    MaxOk (runJobStart s k a) := by
  intro N hN
  rw [runJobStart_maxConcurrent] at hN
  have hlt : s.numRunning < N := ltMax_true_some (by rw [← hN]; exact hg)
  have hle : (runJobStart s k a).numRunning ≤ s.numRunning + 1 := by
    unfold runJobStart
    split
    · exact Nat.le_succ _
    · exact Nat.le_refl _
  exact le_trans hle hlt

theorem maxOk_drainGo (l : List (Nat × List Nat)) (s : QState) (h : MaxOk s) :
    MaxOk (drainGo l s) := by
  induction l generalizing s with
  | nil => exact maxOk_mono s _ h rfl (Nat.le_refl _)
  | cons p rest ih =>
      obtain ⟨k, a⟩ := p
      unfold drainGo
      cases hg : ltMax s.numRunning s.maxConcurrent with
      | true =>
          simp only [hg, if_true]
          exact ih _ (maxOk_runJobStart s k a hg h)
      | false =>
          simp only [hg, Bool.false_eq_true, if_false]
          exact maxOk_mono s _ h rfl (Nat.le_refl _)

theorem maxOk_nextCheck (s : QState) (h : MaxOk s) : MaxOk (nextCheck s) := by
  unfold nextCheck
  split
  · split
    · exact maxOk_mono s _ h (by simp) (by simp)
    · exact h
  · exact h

theorem maxOk_next (s : QState) (h : MaxOk s) : MaxOk (next s) := by
  unfold next
  split
  · exact h
  · exact maxOk_nextCheck _ (maxOk_drainGo _ _ h)

theorem maxOk_add (s : QState) (k : Nat) (a : List Nat) (h : MaxOk s) :
    MaxOk (add s k a).1 := by
  unfold add
  split
  · exact h
  · dsimp only
    split
    · next hcond =>
        have hg := (Bool.and_eq_true _ _).mp hcond
        exact maxOk_runJobStart _ k a hg.2 h
    · exact maxOk_mono s _ h rfl (Nat.le_refl _)

theorem maxOk_run (s : QState) (h : MaxOk s) : MaxOk (run s).1 := by
  unfold run
  split
  · exact h
  · exact maxOk_next _ h

theorem maxOk_settleJob (s : QState) (i : Nat) (res : Option Nat)
    (h : MaxOk s) : MaxOk (settleJob s i res) := by
  unfold settleJob
  split
  · exact h
  · dsimp only
    split
    · exact maxOk_next _ (maxOk_mono s _ h (by simp) (by simp [Nat.sub_le]))
    · split
      · exact maxOk_next _ (maxOk_mono s _ h rfl (Nat.sub_le _ _))
      · refine maxOk_mono s _ h ?_ ?_
        · simp only [reset_maxConcurrent]
          split <;> simp
        · simp only [reset_numRunning]
          split <;> simp [Nat.sub_le]

theorem maxOk_step (s s' : QState) (hstep : Step s s') (h : MaxOk s) :
    MaxOk s' := by
  cases hstep with
  | add k a => exact maxOk_add s k a h
  | run => exact maxOk_run s h
  | settle i res => exact maxOk_settleJob s i res h

theorem maxOk_reachable (s0 s : QState) (h0 : MaxOk s0)
    (h : ReachableFrom s0 s) : MaxOk s := by
  induction h with
  | refl => exact h0
  | tail hab hbc ih => exact maxOk_step _ _ hbc ih

theorem nextCheck_maxConcurrent (s : QState) :
    (nextCheck s).maxConcurrent = s.maxConcurrent := by
  unfold nextCheck
  split
  · split
    · simp
    · rfl
  · rfl

theorem next_maxConcurrent (s : QState) :
    (next s).maxConcurrent = s.maxConcurrent := by
  unfold next
  split
  · rfl
  · rw [nextCheck_maxConcurrent, drainGo_maxConcurrent]

theorem add_maxConcurrent (s : QState) (k : Nat) (a : List Nat) :
    (add s k a).1.maxConcurrent = s.maxConcurrent := by
  unfold add
  split
  · rfl
  · dsimp only
    split
    · exact runJobStart_maxConcurrent _ _ _
    · rfl

theorem run_maxConcurrent (s : QState) :
    (run s).1.maxConcurrent = s.maxConcurrent := by
  unfold run
  split
  · rfl
  · dsimp only
    rw [next_maxConcurrent]

theorem settleJob_maxConcurrent (s : QState) (i : Nat) (res : Option Nat) :
    (settleJob s i res).maxConcurrent = s.maxConcurrent := by
  unfold settleJob
  split
  · rfl
  · dsimp only
    split
    · rw [next_maxConcurrent]
      simp
    · split
      · rw [next_maxConcurrent]
      · rw [reset_maxConcurrent]
        split <;> simp

theorem maxConcurrent_step (s s' : QState) (hstep : Step s s') :
    s'.maxConcurrent = s.maxConcurrent := by
  cases hstep with
  | add k a => exact add_maxConcurrent s k a
  | run => exact run_maxConcurrent s
  | settle i res => exact settleJob_maxConcurrent s i res

theorem maxConcurrent_reachable (s0 s : QState) (h : ReachableFrom s0 s) :
    s.maxConcurrent = s0.maxConcurrent := by
  induction h with
  | refl => rfl
  | tail hab hbc ih => rw [maxConcurrent_step _ _ hbc, ih]

/-- C1: for a queue constructed with finite concurrency limit `N`, in every
reachable state the number of in-flight worker invocations (`_numRunning`)
is at most `N`; the proof shows every operation (`add`, `run`, settlement
of a worker) preserves the bound. -/
theorem runningCount_le_maxConcurrent (N : Nat) (r : Bool) (s : QState)
    (h : ReachableFrom (initQ (some N) r) s) : s.numRunning ≤ N := by
  have hmax : s.maxConcurrent = some N := maxConcurrent_reachable _ _ h
  have hok : MaxOk s := maxOk_reachable _ _ (fun M hM => by
    cases hM
    exact Nat.zero_le _) h
  exact hok N hmax

/-- Witness for `runningCount_le_maxConcurrent`: in the concrete reachable
trace state `sA3` of the queue with limit 1, one worker is in flight. -/
theorem runningCount_le_maxConcurrent_witness : sA3.numRunning ≤ 1 :=
  runningCount_le_maxConcurrent 1 false sA3
    (Relation.ReflTransGen.tail
      (Relation.ReflTransGen.tail
        (Relation.ReflTransGen.tail Relation.ReflTransGen.refl
          (Step.add sA0 1 []))
        (Step.add sA1 2 []))
      (Step.run sA2))

end PromiseQueueModel

namespace PromiseQueueModel

theorem reachA3 : ReachableFrom sA0 sA3 :=
  Relation.ReflTransGen.tail
    (Relation.ReflTransGen.tail
      (Relation.ReflTransGen.tail Relation.ReflTransGen.refl (Step.add sA0 1 []))
      (Step.add sA1 2 []))
    (Step.run sA2)

theorem reachA : ReachableFrom sA0 cexA :=
  Relation.ReflTransGen.tail reachA3 (Step.settle sA3 0 (some 5))

theorem reachB : ReachableFrom sB0 sB11 :=
  Relation.ReflTransGen.tail
    (Relation.ReflTransGen.tail
      (Relation.ReflTransGen.tail
        (Relation.ReflTransGen.tail
          (Relation.ReflTransGen.tail
            (Relation.ReflTransGen.tail
              (Relation.ReflTransGen.tail
                (Relation.ReflTransGen.tail
                  (Relation.ReflTransGen.tail
                    (Relation.ReflTransGen.tail
                      (Relation.ReflTransGen.tail Relation.ReflTransGen.refl
                        (Step.add sB0 1 []))
                      (Step.add sB1 2 []))
                    (Step.add sB2 3 []))
                  (Step.run sB3))
                (Step.settle sB4 0 (some 9)))
              (Step.settle sB5 1 (some 9)))
            (Step.settle sB6 1 (some 9)))
          (Step.add sB7 3 []))
        (Step.run sB8))
      (Step.settle sB9 0 none))
    (Step.settle sB10 0 (some 9))

/-- C4: the retry bound "the worker is invoked at most twice per distinct
admitted job" is violated by the code.  In the reachable trace state `sB11`
the job admitted by the `add` of key 3 in state `sB7` — whose completion
handle id is 4 — has had its worker invoked three times: a stale pending
entry left behind by the previous cycle's terminal reset starts the job a
first time, the job's own pending entry starts it a second time while the
first invocation is still in flight, and the failure of the first
invocation (captured `retried = false`) re-enqueues and starts it a third
time. -/
theorem worker_invoked_thrice :
    ReachableFrom sB0 sB11 ∧
    (add sB7 3 []).2 = 4 ∧
    sB11.invocations.count 4 = 3 :=
  ⟨reachB, by decide, by decide⟩

/-- C5 counterexample: the invariant "every pending pair has a registry
entry" fails in the reachable state `cexA`, reached when a terminal failure
resets the registry while the never-started pair for key 2 is still
pending. -/
theorem pending_registry_invariant_fails :
    ¬ (∀ s : QState, ReachableFrom (initQ (some 1) false) s → PendingInv s) := by
  intro hall
  exact absurd (hall cexA reachA (2, []) (by decide)) (by decide)

/-- C6 counterexample: a cycle end (here a terminal failure: the settle
takes the terminal branch and clears `runPromise`) does not clear all four
pieces of cycle state — the pending queue stays non-empty. -/
theorem cycle_end_reset_clears_all_fails :
    ReachableFrom (initQ (some 1) false) sA3 ∧
    sA3.runPromise.isSome = true ∧
    terminalAt sA3 0 (some 5) = true ∧
    (settleJob sA3 0 (some 5)).runPromise = none ∧
    (settleJob sA3 0 (some 5)).processing = [] ∧
    (settleJob sA3 0 (some 5)).queue ≠ [] :=
  ⟨reachA3, by decide, by decide, by decide, by decide, by decide⟩

end PromiseQueueModel

namespace PromiseQueueModel

/-! List lemmas supporting the structural invariant. -/

theorem exists_mem_of_countP_pos {α : Type} (f : α → Bool) :
    ∀ l : List α, 0 < l.countP f → ∃ x ∈ l, f x = true := by
  intro l
  induction l with
  | nil =>
      intro h
      rw [List.countP_nil] at h
      exact absurd h (by omega)
  | cons a t ih =>
      intro h
      cases hfa : f a with
      | true => exact ⟨a, List.mem_cons_self _ _, hfa⟩
      | false =>
          rw [List.countP_cons, hfa] at h
          simp only [Bool.false_eq_true, if_false, Nat.add_zero] at h
          obtain ⟨x, hx, hfx⟩ := ih h
          exact ⟨x, List.mem_cons_of_mem _ hx, hfx⟩

theorem countP_pos_of_mem {α : Type} {f : α → Bool} {x : α} {l : List α}
    (hx : x ∈ l) (hf : f x = true) : 0 < l.countP f := by
  induction l with
  | nil => cases hx
  | cons a t ih =>
      rw [List.countP_cons]
      rcases List.mem_cons.mp hx with rfl | hx2
      · simp [hf]
      · have h1 := ih hx2
        have h2 : (0 : Nat) ≤ if f a then 1 else 0 := Nat.zero_le _
        omega

theorem countP_eraseIdx {α : Type} (f : α → Bool) :
    ∀ (l : List α) (i : Nat) (x : α), l[i]? = some x →
      l.countP f = (l.eraseIdx i).countP f + (if f x then 1 else 0) := by
  intro l
  induction l with
  | nil => intro i x h; simp at h
  | cons a t ih =>
      intro i x h
      cases i with
      | zero =>
          simp only [List.getElem?_cons_zero, Option.some.injEq] at h
          subst h
          rw [List.eraseIdx_cons_zero, List.countP_cons]
      | succ n =>
          simp only [List.getElem?_cons_succ] at h
          rw [List.eraseIdx_cons_succ, List.countP_cons, List.countP_cons, ih n x h]
          omega

theorem mem_of_getElem_opt {α : Type} :
    ∀ (l : List α) (i : Nat) (x : α), l[i]? = some x → x ∈ l := by
  intro l
  induction l with
  | nil => intro i x h; simp at h
  | cons a t ih =>
      intro i x h
      cases i with
      | zero =>
          simp only [List.getElem?_cons_zero, Option.some.injEq] at h
          subst h
          exact List.mem_cons_self _ _
      | succ n =>
          simp only [List.getElem?_cons_succ] at h
          exact List.mem_cons_of_mem _ (ih n x h)

theorem mem_of_mem_eraseIdx {α : Type} :
    ∀ (l : List α) (i : Nat) (x : α), x ∈ l.eraseIdx i → x ∈ l := by
  intro l
  induction l with
  | nil => intro i x h; simp [List.eraseIdx] at h
  | cons a t ih =>
      intro i x h
      cases i with
      | zero =>
          rw [List.eraseIdx_cons_zero] at h
          exact List.mem_cons_of_mem _ h
      | succ n =>
          rw [List.eraseIdx_cons_succ] at h
          rcases List.mem_cons.mp h with rfl | h2
          · exact List.mem_cons_self _ _
          · exact List.mem_cons_of_mem _ (ih n x h2)

@[simp] theorem reset_queue (s : QState) : (reset s).queue = s.queue := rfl

@[simp] theorem reset_inflight (s : QState) : (reset s).inflight = s.inflight := rfl

@[simp] theorem reset_processing (s : QState) : (reset s).processing = [] := rfl

theorem runJobStart_of_some (s : QState) (k : Nat) (a : List Nat) (job : Job)
    (h : mapGet s.processing k = some job) :
    runJobStart s k a =
      { s with numRunning := s.numRunning + 1,
               inflight := s.inflight ++ [(k, a, job)],
               invocations := s.invocations ++ [job.deferredId] } := by
  unfold runJobStart
  rw [h]

/-! Preservation of the structural invariant by every non-terminal turn. -/

theorem goodAux_drainGo (l : List (Nat × List Nat)) (s : QState)
    (h : GoodAux l s) : GoodInv (drainGo l s) := by
  induction l generalizing s with
  | nil =>
      obtain ⟨h1, h2, h3⟩ := h
      exact ⟨fun p hp => absurd hp (List.not_mem_nil p), h2, h3⟩
  | cons q rest ih =>
      obtain ⟨k, a⟩ := q
      obtain ⟨h1, h2, h3⟩ := h
      unfold drainGo
      cases hg : ltMax s.numRunning s.maxConcurrent with
      | false =>
          simp only [hg, Bool.false_eq_true, if_false]
          exact ⟨h1, h2, h3⟩
      | true =>
          simp only [hg, if_true]
          apply ih
          have hk : (mapGet s.processing k).isSome = true :=
            h1 (k, a) (List.mem_cons_self _ _)
          obtain ⟨job, hjob⟩ := Option.isSome_iff_exists.mp hk
          rw [runJobStart_of_some s k a job hjob]
          refine ⟨?_, ?_, ?_⟩
          · intro p hp
            exact h1 p (List.mem_cons_of_mem _ hp)
          · intro r hr
            rcases List.mem_append.mp hr with hr | hr
            · exact h2 r hr
            · rw [List.mem_singleton] at hr
              subst hr
              exact hjob
          · intro k'
            have hcnt := h3 k'
            rw [List.countP_cons] at hcnt
            rw [List.countP_append, List.countP_cons]
            simp only [List.countP_nil]
            by_cases hkk : k = k'
            · simp only [show ((k, a).1 == k') = true by simp [hkk],
                show ((k, a, job).1 == k') = true by simp [hkk], if_true] at hcnt ⊢
              omega
            · simp only [show ((k, a).1 == k') = false by simp [hkk],
                show ((k, a, job).1 == k') = false by simp [hkk], if_false] at hcnt ⊢
              omega

theorem goodInv_nextCheck (s : QState) (h : GoodInv s) : GoodInv (nextCheck s) := by
  unfold nextCheck
  split
  · next hemp =>
      have hp : s.processing = [] := by
        cases hpp : s.processing with
        | nil => rfl
        | cons x xs => rw [hpp] at hemp; simp at hemp
      have hq : s.queue = [] := by
        cases hqq : s.queue with
        | nil => rfl
        | cons x xs =>
            have hx := h.1 x (by rw [hqq]; exact List.mem_cons_self _ _)
            rw [hp] at hx
            simp [mapGet] at hx
      have hi : s.inflight = [] := by
        cases hii : s.inflight with
        | nil => rfl
        | cons x xs =>
            have hx := h.2.1 x (by rw [hii]; exact List.mem_cons_self _ _)
            rw [hp] at hx
            simp [mapGet] at hx
      split
      · refine ⟨?_, ?_, ?_⟩
        · intro p hp2
          simp only [reset_queue, settleP_queue, hq] at hp2
          cases hp2
        · intro r hr
          simp only [reset_inflight, settleP_inflight, hi] at hr
          cases hr
        · intro k'
          simp only [reset_queue, reset_inflight, settleP_queue, settleP_inflight, hq, hi,
            List.countP_nil]
          omega
      · exact h
  · exact h

theorem goodInv_next (s : QState) (h : GoodInv s) : GoodInv (next s) := by
  unfold next
  split
  · exact h
  · exact goodInv_nextCheck _ (goodAux_drainGo s.queue s h)

end PromiseQueueModel

namespace PromiseQueueModel

theorem goodInv_add (s : QState) (k : Nat) (a : List Nat) (h : GoodInv s) :
    GoodInv (add s k a).1 := by
  unfold add
  split
  · exact h
  · next hnone =>
      dsimp only
      have hq0 : s.queue.countP (fun p => p.1 == k) = 0 := by
        by_contra hne
        obtain ⟨p, hp, hpk⟩ :=
          exists_mem_of_countP_pos _ _ (Nat.pos_of_ne_zero hne)
        have hps := h.1 p hp
        have hpe : p.1 = k := by simpa using hpk
        rw [hpe, hnone] at hps
        simp at hps
      have hi0 : s.inflight.countP (fun r => r.1 == k) = 0 := by
        by_contra hne
        obtain ⟨r, hr, hrk⟩ :=
          exists_mem_of_countP_pos _ _ (Nat.pos_of_ne_zero hne)
        have hrs := h.2.1 r hr
        have hre : r.1 = k := by simpa using hrk
        rw [hre, hnone] at hrs
        cases hrs
      split
      · dsimp only
        rw [runJobStart_of_some _ k a ⟨s.nextId, false⟩ (mapGet_mapSet_self _ _ _)]
        refine ⟨?_, ?_, ?_⟩
        · intro p hp
          by_cases hpk : p.1 = k
          · rw [hpk, mapGet_mapSet_self]
            rfl
          · rw [mapGet_mapSet_ne _ _ _ _ hpk]
            exact h.1 p hp
        · intro r hr
          rcases List.mem_append.mp hr with hr | hr
          · have hrs := h.2.1 r hr
            by_cases hrk : r.1 = k
            · rw [hrk, hnone] at hrs
              cases hrs
            · rw [mapGet_mapSet_ne _ _ _ _ hrk]
              exact hrs
          · rw [List.mem_singleton] at hr
            subst hr
            exact mapGet_mapSet_self _ _ _
        · intro k'
          rw [List.countP_append, List.countP_cons]
          simp only [List.countP_nil]
          have hcnt := h.2.2 k'
          by_cases hkk : k = k'
          · subst hkk
            rw [hq0, hi0]
            simp
          · have hb : (k == k') = false := by simp [hkk]
            simp only [hb, Bool.false_eq_true, if_false]
            omega
      · dsimp only
        refine ⟨?_, ?_, ?_⟩
        · intro p hp
          rcases List.mem_append.mp hp with hp | hp
          · by_cases hpk : p.1 = k
            · rw [hpk, mapGet_mapSet_self]
              rfl
            · rw [mapGet_mapSet_ne _ _ _ _ hpk]
              exact h.1 p hp
          · rw [List.mem_singleton] at hp
            subst hp
            rw [show ((k, a) : Nat × List Nat).1 = k from rfl, mapGet_mapSet_self]
            rfl
        · intro r hr
          have hrs := h.2.1 r hr
          by_cases hrk : r.1 = k
          · rw [hrk, hnone] at hrs
            cases hrs
          · rw [mapGet_mapSet_ne _ _ _ _ hrk]
            exact hrs
        · intro k'
          rw [List.countP_append, List.countP_cons]
          simp only [List.countP_nil]
          have hcnt := h.2.2 k'
          by_cases hkk : k = k'
          · subst hkk
            rw [hq0, hi0]
            simp
          · have hb : (k == k') = false := by simp [hkk]
            simp only [hb, Bool.false_eq_true, if_false]
            omega

end PromiseQueueModel

namespace PromiseQueueModel

theorem goodInv_run (s : QState) (h : GoodInv s) : GoodInv (run s).1 := by
  unfold run
  split
  · exact h
  · dsimp only
    apply goodInv_next
    exact h

theorem goodInv_settleJob (s : QState) (i : Nat) (res : Option Nat)
    (hterm : terminalAt s i res = false) (h : GoodInv s) :
    GoodInv (settleJob s i res) := by
  unfold settleJob
  split
  · exact h
  · rename_i k a job hrec
    dsimp only
    have hmem : (k, a, job) ∈ s.inflight := mem_of_getElem_opt _ i _ hrec
    have herase : ∀ k' : Nat, s.inflight.countP (fun t => t.1 == k') =
        (s.inflight.eraseIdx i).countP (fun t => t.1 == k') +
          (if k == k' then 1 else 0) := by
      intro k'
      have hc := countP_eraseIdx (fun t => t.1 == k') s.inflight i _ hrec
      simpa using hc
    have hkey : ∀ r ∈ s.inflight.eraseIdx i, r.1 ≠ k := by
      intro r hr hrk
      have he := herase k
      simp only [beq_self_eq_true, if_true] at he
      have h1 : 0 < (s.inflight.eraseIdx i).countP (fun t => t.1 == k) :=
        countP_pos_of_mem hr (by simp [hrk])
      have h2 := h.2.2 k
      omega
    have hqk : ∀ p ∈ s.queue, p.1 ≠ k := by
      intro p hp hpk
      have h1 : 0 < s.queue.countP (fun t => t.1 == k) :=
        countP_pos_of_mem hp (by simp [hpk])
      have h2 : 0 < s.inflight.countP (fun t => t.1 == k) :=
        countP_pos_of_mem hmem (by simp)
      have h3 := h.2.2 k
      omega
    cases res with
    | none =>
        dsimp only
        apply goodInv_next
        refine ⟨?_, ?_, ?_⟩
        · intro p hp
          simp only [settleP_queue] at hp
          simp only [settleP_processing]
          rw [mapGet_mapDelete_ne _ _ _ (hqk p hp)]
          exact h.1 p hp
        · intro r hr
          simp only [settleP_inflight] at hr
          simp only [settleP_processing]
          rw [mapGet_mapDelete_ne _ _ _ (hkey r hr)]
          exact h.2.1 r (mem_of_mem_eraseIdx _ _ _ hr)
        · intro k'
          simp only [settleP_queue, settleP_inflight]
          have h2 := h.2.2 k'
          have he := herase k'
          have h3 : (0 : Nat) ≤ if k == k' then 1 else 0 := Nat.zero_le _
          omega
    | some err =>
        dsimp only
        have hcond : (s.retry && !job.retried) = true := by
          unfold terminalAt at hterm
          rw [hrec] at hterm
          simpa using hterm
        simp only [hcond, if_true]
        apply goodInv_next
        refine ⟨?_, ?_, ?_⟩
        · intro p hp
          rcases List.mem_append.mp hp with hp | hp
          · rw [mapGet_mapSet_ne _ _ _ _ (hqk p hp)]
            exact h.1 p hp
          · rw [List.mem_singleton] at hp
            subst hp
            rw [show ((k, a) : Nat × List Nat).1 = k from rfl, mapGet_mapSet_self]
            rfl
        · intro r hr
          rw [mapGet_mapSet_ne _ _ _ _ (hkey r hr)]
          exact h.2.1 r (mem_of_mem_eraseIdx _ _ _ hr)
        · intro k'
          rw [List.countP_append, List.countP_cons]
          simp only [List.countP_nil]
          have h2 := h.2.2 k'
          have he := herase k'
          by_cases hkk : k = k'
          · subst hkk
            simp only [beq_self_eq_true, if_true] at he ⊢
            omega
          · have hb : ((k : Nat) == k') = false := by simp [hkk]
            simp only [hb, Bool.false_eq_true, if_false] at he ⊢
            omega

theorem goodInv_stepNT (s s' : QState) (hstep : StepNT s s') (h : GoodInv s) :
    GoodInv s' := by
  cases hstep with
  | add k a => exact goodInv_add s k a h
  | run => exact goodInv_run s h
  | settle i res hterm => exact goodInv_settleJob s i res hterm h

theorem goodInv_reachableNT (s0 s : QState) (h0 : GoodInv s0)
    (h : ReachableNT s0 s) : GoodInv s := by
  induction h with
  | refl => exact h0
  | tail hab hbc ih => exact goodInv_stepNT _ _ hbc ih

/-- C5 (amended): in every state reachable without a terminal failure,
every (key, extraArgs) pair in the pending queue has a registry entry for
its key.  (The unamended claim — that this holds in every reachable state,
including after a terminal-failure reset — is refuted by
`pending_registry_invariant_fails`.) -/
theorem pending_has_registry_entry_terminal_free (mc : Option Nat) (r : Bool)
    (s : QState) (h : ReachableNT (initQ mc r) s) :
    ∀ p ∈ s.queue, (mapGet s.processing p.1).isSome = true := by
  have hg : GoodInv s := by
    apply goodInv_reachableNT (initQ mc r) s ?_ h
    refine ⟨?_, ?_, ?_⟩
    · intro p hp
      cases hp
    · intro r2 hr2
      cases hr2
    · intro k
      simp [initQ, List.countP_nil]
  exact hg.1

/-- Witness for `pending_has_registry_entry_terminal_free`: in the trace
state `sB4` (reached without terminal failure) the pending pair for key 3
has its registry entry. -/
theorem pending_has_registry_entry_terminal_free_witness :
    (mapGet sB4.processing 3).isSome = true :=
  pending_has_registry_entry_terminal_free (some 2) true sB4
    (Relation.ReflTransGen.tail
      (Relation.ReflTransGen.tail
        (Relation.ReflTransGen.tail
          (Relation.ReflTransGen.tail Relation.ReflTransGen.refl
            (StepNT.add sB0 1 []))
          (StepNT.add sB1 2 []))
        (StepNT.add sB2 3 []))
      (StepNT.run sB3))
    (3, []) (by decide)

end PromiseQueueModel
